import Mathlib

/-!
Shallow embedding of `src/profanity_filter.cpp`: four profanity-filter
engines (literal set, regex patterns, trie, hybrid) offering
`containsProfanity` / `censor` / `addProfanity` over ASCII text.
Strings are modelled as `List Char`; `::tolower` as `Char.toLower`
(ASCII case fold).
-/

/-- ASCII case fold of a string, as in `toLower` in the source
(`std::transform` with `::tolower` applied to every character). -/
def toLowerL (s : List Char) : List Char := s.map Char.toLower

/-- True iff the word `w` occurs in `s` starting exactly at index `p`
(the occurrence must fit inside `s`). -/
def matchAt (s w : List Char) (p : Nat) : Bool :=
  (s.drop p).take w.length == w

/-- `std::string::find(w, pos)` on `s`: the smallest index `p ≥ pos` at
which `w` occurs in `s`, `none` when there is no such occurrence. -/
def findFrom (s w : List Char) (pos : Nat) : Option Nat :=
  (List.range (s.length + 1)).find? (fun p => decide (pos ≤ p) && matchAt s w p)

/-- Overwrite `len` characters of `res` with `repl`, starting at index
`p`; positions past the end of `res` are ignored (models the in-place
writes `result[pos + i] = replacementChar`). -/
def maskFrom (repl : Char) : List Char → Nat → Nat → List Char
  | [], _, _ => []
  | c :: cs, p + 1, len => c :: maskFrom repl cs p len
  | c :: cs, 0, 0 => c :: cs
  | _ :: cs, 0, len + 1 => repl :: maskFrom repl cs 0 len

/-- The inner `while ((pos = lowerText.find(word, pos)) != npos)` loop of
`SimpleReplacementFilter::censor`: mask each found occurrence and resume
the search at the end of the match.  `fuel` bounds the number of loop
iterations; `text.length + 1` iterations always suffice for a non-empty
word (the C++ loop does not terminate on an empty word). -/
def censorWordAux (lower w : List Char) (repl : Char) : Nat → Nat → List Char → List Char
  | 0, _, res => res
  | fuel + 1, pos, res =>
    match findFrom lower w pos with
    | none => res
    | some p => censorWordAux lower w repl fuel (p + w.length) (maskFrom repl res p w.length)

/-- `SimpleReplacementFilter::censor` with an explicit iteration bound
`fuel` for each word's scanning loop. -/
def simpleCensorFuel (fuel : Nat) (words : List (List Char)) (repl : Char)
    (text : List Char) : List Char :=
  words.foldl (fun res w => censorWordAux (toLowerL text) w repl fuel 0 res) text

/-- `SimpleReplacementFilter::censor`: lowercase the text once, then for
every word in the profanity list mask every occurrence found by a
left-to-right scan that resumes after each match. -/
def simpleCensor (words : List (List Char)) (repl : Char) (text : List Char) : List Char :=
  simpleCensorFuel (text.length + 1) words repl text

/-- `SimpleReplacementFilter::containsProfanity`: some word of the list
occurs somewhere in the lowercased text. -/
def simpleContains (words : List (List Char)) (text : List Char) : Bool :=
  words.any (fun w => (findFrom (toLowerL text) w 0).isSome)

/-- `std::set<std::string>::insert`: add a word unless already present
(iteration order is irrelevant to every matching result). -/
def insertSet (s : List (List Char)) (w : List Char) : List (List Char) :=
  if w ∈ s then s else s ++ [w]

/-- `SimpleReplacementFilter::addProfanity`: lowercase, then set-insert. -/
def simpleAddProfanity (s : List (List Char)) (w : List Char) : List (List Char) :=
  insertSet s (toLowerL w)

/-- Loading a word list into an initially empty literal-set engine. -/
def simpleLoad (ws : List (List Char)) : List (List Char) :=
  ws.foldl simpleAddProfanity []

/-- The occurrence start positions that the per-word scanning loop of
`SimpleReplacementFilter::censor` masks: leftmost matches, resuming after
the end of each match (overlapping occurrences of the same word are
skipped). -/
def greedyPositions (lower w : List Char) : Nat → Nat → List Nat
  | 0, _ => []
  | fuel + 1, pos =>
    match findFrom lower w pos with
    | none => []
    | some p => p :: greedyPositions lower w fuel (p + w.length)

/-- Index `i` lies inside an occurrence range masked by the literal-set
censor. -/
def coveredBySimple (words : List (List Char)) (lower : List Char) (i : Nat) : Bool :=
  words.any fun w =>
    (greedyPositions lower w (lower.length + 1) 0).any fun p =>
      decide (p ≤ i) && decide (i < p + w.length)

/-- A compiled pattern of `RegexFilter`, abstracted by its search
behaviour: given the lowercased haystack and a start index, return the
absolute position and length of the first match at or after that index,
or `none`.  (`std::regex_search` over the iterator range
`[searchStart, end)`, with `match.position()` shifted to an absolute
index, exactly as `RegexFilter::censor` computes it.) -/
def RegexPat : Type := List Char → Nat → Option (Nat × Nat)

/-- The search behaviour `std::regex(w, icase)` has when `w` contains no
regex metacharacters: a case-blind literal substring search, which over
the already-lowercased haystack is `findFrom` with the lowercased word. -/
def litSearch (w : List Char) : RegexPat :=
  fun lower start => (findFrom lower (toLowerL w) start).map (fun p => (p, w.length))

/-- The inner `while (std::regex_search(...))` loop of
`RegexFilter::censor`: mask each match span (writes past the end of
`result` are guarded out) and resume searching at `match.suffix().first`,
the end of the match.  `fuel` bounds the iterations; `lower.length + 1`
suffices whenever every match is non-empty. -/
def regexCensorAux (pat : RegexPat) (lower : List Char) (repl : Char) :
    Nat → Nat → List Char → List Char
  | 0, _, res => res
  | fuel + 1, start, res =>
    match pat lower start with
    | none => res
    | some (p, len) => regexCensorAux pat lower repl fuel (p + len) (maskFrom repl res p len)

/-- `RegexFilter::censor`: lowercase the text once, then run each
pattern's replace loop in registration order.  Every pattern searches
`lower` — the lowercase of the ORIGINAL text — while the masks accumulate
in `res`. -/
def regexCensor (pats : List RegexPat) (repl : Char) (text : List Char) : List Char :=
  pats.foldl
    (fun res pat => regexCensorAux pat (toLowerL text) repl ((toLowerL text).length + 1) 0 res)
    text

/-- `RegexFilter::containsProfanity`: some pattern matches somewhere in
the lowercased text. -/
def regexContains (pats : List RegexPat) (text : List Char) : Bool :=
  pats.any (fun pat => (pat (toLowerL text) 0).isSome)

/-- The match list a pattern's replace loop processes: repeated
search-from-last-match-end over the fixed haystack `lower`. -/
def collectMatches (pat : RegexPat) (lower : List Char) : Nat → Nat → List (Nat × Nat)
  | 0, _ => []
  | fuel + 1, start =>
    match pat lower start with
    | none => []
    | some (p, len) => (p, len) :: collectMatches pat lower fuel (p + len)

/-- Mask every span of a match list. -/
def applyMatches (repl : Char) (ms : List (Nat × Nat)) (res : List Char) : List Char :=
  ms.foldl (fun r m => maskFrom repl r m.1 m.2) res

/-- Modelled from the spec: the spec's description of the pattern-set
censor, in which each pattern re-scans the progressively-masked string
produced by the earlier patterns (so later patterns see the mask
characters, not the original text).  The source instead scans the
lowercased original text throughout; this definition exists to be
compared against `regexCensor`. -/
def regexCensorRescanMasked (pats : List RegexPat) (repl : Char) (text : List Char) : List Char :=
  pats.foldl
    (fun res pat => regexCensorAux pat (toLowerL res) repl ((toLowerL res).length + 1) 0 res)
    text

/-- A trie node: `isEndOfWord` flag plus children keyed by character
(`std::unordered_map<char, std::shared_ptr<TrieNode>>`, modelled as an
association list — only lookups and single-key updates are performed). -/
inductive Trie where
  | mk (isEndOfWord : Bool) (children : List (Char × Trie))

/-- The `isEndOfWord` field. -/
def Trie.isEnd : Trie → Bool
  | .mk b _ => b

/-- The `children` map. -/
def Trie.childList : Trie → List (Char × Trie)
  | .mk _ ch => ch

/-- `children.find(c)` on the association list. -/
def findChild : List (Char × Trie) → Char → Option Trie
  | [], _ => none
  | (c', t) :: rest, c => if c' = c then some t else findChild rest c

/-- Store `t` under key `c`, replacing the existing binding if any. -/
def updateChild : List (Char × Trie) → Char → Trie → List (Char × Trie)
  | [], c, t => [(c, t)]
  | (c', t') :: rest, c, t =>
    if c' = c then (c, t) :: rest else (c', t') :: updateChild rest c t

/-- A fresh node (`std::make_shared<TrieNode>()`). -/
def Trie.empty : Trie := .mk false []

/-- `TrieFilter::addToTrie`: walk/create one node per character and mark
the final node as end-of-word. -/
def Trie.insert : Trie → List Char → Trie
  | .mk _ ch, [] => .mk true ch
  | .mk b ch, c :: cs =>
    .mk b (updateChild ch c (((findChild ch c).getD Trie.empty).insert cs))

/-- Building a trie by inserting each word (lowercased, as
`TrieFilter::addProfanity` does) into an initially empty trie. -/
def trieOfWords (ws : List (List Char)) : Trie :=
  ws.foldl (fun t w => t.insert (toLowerL w)) Trie.empty

/-- The inner walk of `TrieFilter::containsProfanity` from one start
position: follow characters down the trie and report whether some
visited child is an end-of-word node. -/
def walkContains : Trie → List Char → Bool
  | _, [] => false
  | t, c :: cs =>
    match findChild t.childList c with
    | none => false
    | some t' => t'.isEnd || walkContains t' cs

/-- The inner walk of `TrieFilter::censor` from one start position:
follow characters down the trie, remembering the deepest end-of-word
node seen.  `some k` means the longest banned word beginning here has
length `k + 1`; `none` means no banned word begins here. -/
def walkLongest : Trie → List Char → Option Nat
  | _, [] => none
  | t, c :: cs =>
    match findChild t.childList c with
    | none => none
    | some t' =>
      match walkLongest t' cs with
      | some k => some (k + 1)
      | none => if t'.isEnd then some 0 else none

/-- The word `w` is spelled by a root-to-end-of-word path of the trie
(the root's own flag is never consulted by the scans, so the empty word
is never "in" a trie). -/
def wordInTrie : Trie → List Char → Bool
  | _, [] => false
  | t, c :: cs =>
    match findChild t.childList c with
    | none => false
    | some t' => if cs.isEmpty then t'.isEnd else wordInTrie t' cs

/-- `TrieFilter::containsProfanity`: some start position of the
lowercased text begins a banned word. -/
def trieContains (t : Trie) (text : List Char) : Bool :=
  (List.range (toLowerL text).length).any (fun i => walkContains t ((toLowerL text).drop i))

/-- The outer scan of `TrieFilter::censor`, walking `lower` and `orig`
in lockstep: at each position, if a banned word of length `k + 1` begins
(the longest one), mask those characters and resume immediately after
the match; otherwise keep one character and advance by one.  `fuel`
bounds the number of scan steps; since every step consumes at least one
character, `lower.length` steps always suffice (the C++ `for` loop
performs at most that many iterations). -/
def trieCensorFuel (t : Trie) (repl : Char) : Nat → List Char → List Char → List Char
  | 0, _, orig => orig
  | _ + 1, [], orig => orig
  | fuel + 1, c :: cs, orig =>
    match walkLongest t (c :: cs) with
    | none =>
      match orig with
      | [] => []
      | o :: os => o :: trieCensorFuel t repl fuel cs os
    | some k => List.replicate (k + 1) repl ++ trieCensorFuel t repl fuel (cs.drop k) (orig.drop (k + 1))

/-- `TrieFilter::censor`. -/
def trieCensor (t : Trie) (repl : Char) (text : List Char) : List Char :=
  trieCensorFuel t repl (toLowerL text).length (toLowerL text) text

/-- `RegexFilter::addProfanity` → `addPattern(word)`: the word compiled
as a case-insensitive pattern (for metacharacter-free words, a literal
search). -/
def compileWordPattern (w : List Char) : RegexPat := litSearch w

/-- The state of `HybridFilter`: the three sub-engines' word data, the
three enablement flags, and the shared replacement character. -/
structure HybridFilter where
  simpleWords : List (List Char)
  regexPats : List RegexPat
  trie : Trie
  useSimpleFilter : Bool
  useRegexFilter : Bool
  useTrieFilter : Bool
  repl : Char

/-- `HybridFilter::containsProfanity`: short-circuiting OR over the
enabled sub-engines, in the order simple, regex, trie. -/
def hybridContains (h : HybridFilter) (text : List Char) : Bool :=
  (h.useSimpleFilter && simpleContains h.simpleWords text)
    || (h.useRegexFilter && regexContains h.regexPats text)
    || (h.useTrieFilter && trieContains h.trie text)

/-- `HybridFilter::censor`: a strict sequential pipeline — the simple
censor's output feeds the regex censor feeds the trie censor, each stage
skipped when its flag is off. -/
def hybridCensor (h : HybridFilter) (text : List Char) : List Char :=
  let r1 := if h.useSimpleFilter then simpleCensor h.simpleWords h.repl text else text
  let r2 := if h.useRegexFilter then regexCensor h.regexPats h.repl r1 else r1
  if h.useTrieFilter then trieCensor h.trie h.repl r2 else r2

/-- `HybridFilter::addProfanity`: forward the word to all three
sub-engines; the flags are not consulted or changed. -/
def hybridAddProfanity (h : HybridFilter) (w : List Char) : HybridFilter :=
  { h with
    simpleWords := simpleAddProfanity h.simpleWords w
    regexPats := h.regexPats ++ [compileWordPattern w]
    trie := h.trie.insert (toLowerL w) }

/-- `HybridFilter::loadFromFile`: each sub-engine loads the same line
list, skipping empty lines — equivalent to broadcasting every non-empty
line through `addProfanity`. -/
def hybridLoadWords (h : HybridFilter) (lines : List (List Char)) : HybridFilter :=
  lines.foldl (fun h' w => if w.isEmpty then h' else hybridAddProfanity h' w) h

/-- `HybridFilter::configureFilters`: overwrite the three flags. -/
def configureFilters (h : HybridFilter) (s r t : Bool) : HybridFilter :=
  { h with useSimpleFilter := s, useRegexFilter := r, useTrieFilter := t }

/-! ### Helper lemmas and claim theorems -/

theorem toLowerL_length (s : List Char) : (toLowerL s).length = s.length := by
  simp [toLowerL]

theorem maskFrom_length (repl : Char) :
    ∀ (res : List Char) (p len : Nat), (maskFrom repl res p len).length = res.length := by
  intro res
  induction res with
  | nil => intro p len; simp [maskFrom]
  | cons c cs ih =>
    intro p len
    match p, len with
    | p + 1, len => simp [maskFrom, ih]
    | 0, 0 => simp [maskFrom]
    | 0, len + 1 => simp [maskFrom, ih]

theorem censorWordAux_length (lower w : List Char) (repl : Char) :
    ∀ (fuel pos : Nat) (res : List Char),
      (censorWordAux lower w repl fuel pos res).length = res.length := by
  intro fuel
  induction fuel with
  | zero => intro pos res; simp [censorWordAux]
  | succ n ih =>
    intro pos res
    simp only [censorWordAux]
    cases findFrom lower w pos with
    | none => rfl
    | some p => rw [ih, maskFrom_length]

theorem foldl_censorWord_length (lower : List Char) (repl : Char) (fuel : Nat) :
    ∀ (ws : List (List Char)) (res : List Char),
      (ws.foldl (fun r w => censorWordAux lower w repl fuel 0 r) res).length = res.length := by
  intro ws
  induction ws with
  | nil => intro res; rfl
  | cons w ws ih =>
    intro res
    simp only [List.foldl_cons]
    rw [ih, censorWordAux_length]

theorem simpleCensorFuel_length (fuel : Nat) (words : List (List Char)) (repl : Char)
    (text : List Char) : (simpleCensorFuel fuel words repl text).length = text.length := by
  unfold simpleCensorFuel
  exact foldl_censorWord_length _ _ _ _ _

theorem simpleCensor_length (words : List (List Char)) (repl : Char) (text : List Char) :
    (simpleCensor words repl text).length = text.length :=
  simpleCensorFuel_length _ _ _ _

theorem regexCensorAux_length (pat : RegexPat) (lower : List Char) (repl : Char) :
    ∀ (fuel start : Nat) (res : List Char),
      (regexCensorAux pat lower repl fuel start res).length = res.length := by
  intro fuel
  induction fuel with
  | zero => intro start res; simp [regexCensorAux]
  | succ n ih =>
    intro start res
    simp only [regexCensorAux]
    cases pat lower start with
    | none => rfl
    | some m => rw [ih, maskFrom_length]

theorem foldl_regexCensorAux_length (lower : List Char) (repl : Char) (fuel : Nat) :
    ∀ (ps : List RegexPat) (res : List Char),
      (ps.foldl (fun r pat => regexCensorAux pat lower repl fuel 0 r) res).length
        = res.length := by
  intro ps
  induction ps with
  | nil => intro res; rfl
  | cons p ps ih =>
    intro res
    simp only [List.foldl_cons]
    rw [ih, regexCensorAux_length]

theorem regexCensor_length (pats : List RegexPat) (repl : Char) (text : List Char) :
    (regexCensor pats repl text).length = text.length := by
  unfold regexCensor
  exact foldl_regexCensorAux_length _ _ _ _ _

theorem walkLongest_le :
    ∀ (l : List Char) (t : Trie) (k : Nat), walkLongest t l = some k → k + 1 ≤ l.length := by
  intro l
  induction l with
  | nil => intro t k h; simp [walkLongest] at h
  | cons c cs ih =>
    intro t k h
    simp only [walkLongest] at h
    cases hfc : findChild t.childList c with
    | none => simp [hfc] at h
    | some t' =>
      simp only [hfc] at h
      cases hwl : walkLongest t' cs with
      | none =>
        simp only [hwl] at h
        by_cases he : t'.isEnd = true
        · simp only [he, if_true, Option.some.injEq] at h
          simp only [List.length_cons]
          omega
        · simp [he] at h
      | some k' =>
        simp only [hwl, Option.some.injEq] at h
        subst h
        have := ih t' k' hwl
        simp only [List.length_cons]
        omega

theorem trieCensorFuel_length (t : Trie) (repl : Char) :
    ∀ (fuel : Nat) (lower orig : List Char), lower.length = orig.length →
      (trieCensorFuel t repl fuel lower orig).length = orig.length := by
  intro fuel
  induction fuel with
  | zero => intro lower orig _; rfl
  | succ n ih =>
    intro lower orig hlen
    cases lower with
    | nil => rfl
    | cons c cs =>
      simp only [trieCensorFuel]
      cases hwl : walkLongest t (c :: cs) with
      | none =>
        cases orig with
        | nil => rfl
        | cons o os =>
          simp only [List.length_cons]
          rw [ih cs os (by simpa using hlen)]
      | some k =>
        have hk := walkLongest_le (c :: cs) t k hwl
        simp only [List.length_cons] at hlen hk
        simp only [List.length_append, List.length_replicate]
        rw [ih (cs.drop k) (orig.drop (k + 1))
          (by simp only [List.length_drop]; omega)]
        simp only [List.length_drop]
        omega

theorem trieCensor_length (t : Trie) (repl : Char) (text : List Char) :
    (trieCensor t repl text).length = text.length := by
  unfold trieCensor
  exact trieCensorFuel_length t repl _ _ _ (toLowerL_length text)

theorem hybridCensor_length (h : HybridFilter) (text : List Char) :
    (hybridCensor h text).length = text.length := by
  unfold hybridCensor
  by_cases hs : h.useSimpleFilter = true <;>
    by_cases hr : h.useRegexFilter = true <;>
      by_cases ht : h.useTrieFilter = true <;>
        simp [hs, hr, ht, trieCensor_length, regexCensor_length, simpleCensor_length]

/-- C1: every strategy's censor returns a string of exactly the input's
length — the literal-set, pattern-set (for every pattern search
behaviour), trie, and composite engines all only overwrite characters in
place. -/
theorem censor_preserves_length :
    (∀ (words : List (List Char)) (repl : Char) (text : List Char),
        (simpleCensor words repl text).length = text.length)
    ∧ (∀ (pats : List RegexPat) (repl : Char) (text : List Char),
        (regexCensor pats repl text).length = text.length)
    ∧ (∀ (t : Trie) (repl : Char) (text : List Char),
        (trieCensor t repl text).length = text.length)
    ∧ (∀ (h : HybridFilter) (text : List Char),
        (hybridCensor h text).length = text.length) :=
  ⟨simpleCensor_length, regexCensor_length, trieCensor_length, hybridCensor_length⟩

theorem findFrom_some {s w : List Char} {pos p : Nat} (h : findFrom s w pos = some p) :
    pos ≤ p ∧ p ≤ s.length ∧ matchAt s w p = true := by
  unfold findFrom at h
  have hmem := List.mem_of_find?_eq_some h
  have hp := List.find?_some h
  simp only [Bool.and_eq_true, decide_eq_true_eq] at hp
  simp only [List.mem_range] at hmem
  exact ⟨hp.1, by omega, hp.2⟩

theorem findFrom_eq_none {s w : List Char} {pos : Nat} (h : findFrom s w pos = none) :
    ∀ p, pos ≤ p → p ≤ s.length → matchAt s w p = false := by
  intro p hpos hple
  unfold findFrom at h
  have := List.find?_eq_none.mp h p (by simp only [List.mem_range]; omega)
  simp only [Bool.and_eq_true, decide_eq_true_eq, not_and] at this
  exact Bool.eq_false_iff.mpr (fun hc => this hpos hc)

theorem findFrom_isSome_of_matchAt {s w : List Char} {p : Nat} (hple : p ≤ s.length)
    (hm : matchAt s w p = true) {pos : Nat} (hpos : pos ≤ p) :
    (findFrom s w pos).isSome = true := by
  cases hf : findFrom s w pos with
  | none => exact absurd hm (by simp [findFrom_eq_none hf p hpos hple])
  | some q => rfl

theorem matchAt_fits {s w : List Char} {p : Nat} (hm : matchAt s w p = true)
    (hple : p ≤ s.length) : p + w.length ≤ s.length := by
  unfold matchAt at hm
  have hlen : ((s.drop p).take w.length).length = w.length := by
    rw [beq_iff_eq.mp hm]
  simp only [List.length_take, List.length_drop] at hlen
  omega

theorem censorWordAux_of_none {lower w : List Char} {repl : Char} {pos : Nat}
    (h : findFrom lower w pos = none) :
    ∀ (fuel : Nat) (res : List Char), censorWordAux lower w repl fuel pos res = res := by
  intro fuel res
  cases fuel with
  | zero => rfl
  | succ n => simp only [censorWordAux, h]

theorem simpleContains_false_censor {words : List (List Char)} {text : List Char}
    (h : simpleContains words text = false) (repl : Char) (fuel : Nat) :
    simpleCensorFuel fuel words repl text = text := by
  unfold simpleContains at h
  simp only [List.any_eq_false, Bool.not_eq_true, Option.not_isSome,
    Option.isNone_iff_eq_none] at h
  unfold simpleCensorFuel
  induction words with
  | nil => rfl
  | cons w ws ih =>
    simp only [List.foldl_cons]
    rw [censorWordAux_of_none (h w (by simp))]
    exact ih (fun w' hw' => h w' (by simp [hw']))

theorem walkContains_false_iff :
    ∀ (l : List Char) (t : Trie), walkContains t l = false ↔ walkLongest t l = none := by
  intro l
  induction l with
  | nil => intro t; simp [walkContains, walkLongest]
  | cons c cs ih =>
    intro t
    simp only [walkContains, walkLongest]
    cases hfc : findChild t.childList c with
    | none => simp
    | some t' =>
      simp only [Bool.or_eq_false_iff]
      constructor
      · rintro ⟨he, hw⟩
        rw [(ih t').mp hw]
        simp [Bool.eq_false_iff.mp he]
      · intro h
        cases hwl : walkLongest t' cs with
        | some k => rw [hwl] at h; exact absurd h (by simp)
        | none =>
          rw [hwl] at h
          by_cases he : t'.isEnd = true
          · rw [if_pos he] at h; exact absurd h (by simp)
          · exact ⟨Bool.eq_false_iff.mpr he, (ih t').mpr hwl⟩

theorem trieCensorFuel_of_clean (t : Trie) (repl : Char) :
    ∀ (fuel : Nat) (lower orig : List Char),
      (∀ i, walkContains t (lower.drop i) = false) →
      trieCensorFuel t repl fuel lower orig = orig := by
  intro fuel
  induction fuel with
  | zero => intro lower orig _; rfl
  | succ n ih =>
    intro lower orig hclean
    cases lower with
    | nil => rfl
    | cons c cs =>
      have h0 : walkLongest t (c :: cs) = none :=
        (walkContains_false_iff (c :: cs) t).mp (by simpa using hclean 0)
      simp only [trieCensorFuel, h0]
      cases orig with
      | nil => rfl
      | cons o os =>
        have hrec := ih cs os (fun i => by simpa using hclean (i + 1))
        simp [hrec]

theorem trieContains_false_censor {t : Trie} {text : List Char}
    (h : trieContains t text = false) (repl : Char) :
    trieCensor t repl text = text := by
  unfold trieContains at h
  simp only [List.any_eq_false, List.mem_range, Bool.not_eq_true] at h
  unfold trieCensor
  refine trieCensorFuel_of_clean t repl _ _ _ (fun i => ?_)
  by_cases hi : i < (toLowerL text).length
  · exact h i hi
  · rw [List.drop_eq_nil_of_le (by omega)]
    rfl

/-- C5: for the literal-set and trie strategies, whenever `censor`
changes its input at all, `containsProfanity` reports `true` on that
input. -/
theorem censor_change_implies_detect :
    (∀ (words : List (List Char)) (repl : Char) (text : List Char),
        simpleCensor words repl text ≠ text → simpleContains words text = true)
    ∧ (∀ (t : Trie) (repl : Char) (text : List Char),
        trieCensor t repl text ≠ text → trieContains t text = true) := by
  constructor
  · intro words repl text hne
    by_contra hc
    exact hne (simpleContains_false_censor (Bool.eq_false_iff.mpr hc) repl _)
  · intro t repl text hne
    by_contra hc
    exact hne (trieContains_false_censor (Bool.eq_false_iff.mpr hc) repl)

/-- Witness for C5 at concrete inputs: with word list `{"a"}` the text
`"ab"` is censored to `"*b" ≠ "ab"`, and detection indeed reports true,
for both strategies. -/
theorem censor_change_implies_detect_witness :
    simpleContains [['a']] ['a','b'] = true ∧ trieContains (trieOfWords [['a']]) ['a','b'] = true :=
  ⟨censor_change_implies_detect.1 [['a']] '*' ['a','b'] (by decide),
   censor_change_implies_detect.2 (trieOfWords [['a']]) '*' ['a','b'] (by decide)⟩

theorem regexCensorAux_of_none {pat : RegexPat} {lower : List Char} {repl : Char} {start : Nat}
    (h : pat lower start = none) :
    ∀ (fuel : Nat) (res : List Char), regexCensorAux pat lower repl fuel start res = res := by
  intro fuel res
  cases fuel with
  | zero => rfl
  | succ n => simp only [regexCensorAux, h]

theorem regexContains_false_censor {pats : List RegexPat} {text : List Char}
    (h : regexContains pats text = false) (repl : Char) :
    regexCensor pats repl text = text := by
  unfold regexContains at h
  simp only [List.any_eq_false, Bool.not_eq_true, Option.not_isSome,
    Option.isNone_iff_eq_none] at h
  unfold regexCensor
  induction pats with
  | nil => rfl
  | cons p ps ih =>
    simp only [List.foldl_cons]
    rw [regexCensorAux_of_none (h p (by simp))]
    exact ih (fun p' hp' => h p' (by simp [hp']))

theorem hybridContains_false_censor {h : HybridFilter} {text : List Char}
    (hc : hybridContains h text = false) : hybridCensor h text = text := by
  unfold hybridContains at hc
  simp only [Bool.or_eq_false_iff, Bool.and_eq_false_iff] at hc
  obtain ⟨⟨h1, h2⟩, h3⟩ := hc
  have e1 : (if h.useSimpleFilter then simpleCensor h.simpleWords h.repl text else text)
      = text := by
    cases h1 with
    | inl hfl => simp [hfl]
    | inr hdet =>
      split
      · exact simpleContains_false_censor hdet h.repl _
      · rfl
  have e2 : (if h.useRegexFilter then regexCensor h.regexPats h.repl text else text) = text := by
    cases h2 with
    | inl hfl => simp [hfl]
    | inr hdet =>
      split
      · exact regexContains_false_censor hdet h.repl
      · rfl
  have e3 : (if h.useTrieFilter then trieCensor h.trie h.repl text else text) = text := by
    cases h3 with
    | inl hfl => simp [hfl]
    | inr hdet =>
      split
      · exact trieContains_false_censor hdet h.repl
      · rfl
  unfold hybridCensor
  simp only [e1, e2, e3]

/-- C8: for every strategy, once the censored output contains no further
detectable match, censoring it again changes nothing. -/
theorem censor_stable_when_clean :
    (∀ (words : List (List Char)) (repl : Char) (text : List Char),
        simpleContains words (simpleCensor words repl text) = false →
        simpleCensor words repl (simpleCensor words repl text) = simpleCensor words repl text)
    ∧ (∀ (pats : List RegexPat) (repl : Char) (text : List Char),
        regexContains pats (regexCensor pats repl text) = false →
        regexCensor pats repl (regexCensor pats repl text) = regexCensor pats repl text)
    ∧ (∀ (t : Trie) (repl : Char) (text : List Char),
        trieContains t (trieCensor t repl text) = false →
        trieCensor t repl (trieCensor t repl text) = trieCensor t repl text)
    ∧ (∀ (h : HybridFilter) (text : List Char),
        hybridContains h (hybridCensor h text) = false →
        hybridCensor h (hybridCensor h text) = hybridCensor h text) :=
  ⟨fun _ repl _ hclean => simpleContains_false_censor hclean repl _,
   fun _ repl _ hclean => regexContains_false_censor hclean repl,
   fun _ repl _ hclean => trieContains_false_censor hclean repl,
   fun _ _ hclean => hybridContains_false_censor hclean⟩

/-- Witness for C8 at concrete inputs: with word `"a"` (in all four
engines, pattern compiled literally) and text `"ab"`, the censored output
`"*b"` is detection-free and censoring it again leaves it unchanged. -/
theorem censor_stable_when_clean_witness :
    simpleCensor [['a']] '*' (simpleCensor [['a']] '*' ['a','b'])
      = simpleCensor [['a']] '*' ['a','b']
    ∧ regexCensor [litSearch ['a']] '*' (regexCensor [litSearch ['a']] '*' ['a','b'])
      = regexCensor [litSearch ['a']] '*' ['a','b']
    ∧ trieCensor (trieOfWords [['a']]) '*' (trieCensor (trieOfWords [['a']]) '*' ['a','b'])
      = trieCensor (trieOfWords [['a']]) '*' ['a','b']
    ∧ hybridCensor ⟨[['a']], [litSearch ['a']], trieOfWords [['a']], true, true, true, '*'⟩
        (hybridCensor ⟨[['a']], [litSearch ['a']], trieOfWords [['a']], true, true, true, '*'⟩
          ['a','b'])
      = hybridCensor ⟨[['a']], [litSearch ['a']], trieOfWords [['a']], true, true, true, '*'⟩
          ['a','b'] :=
  ⟨censor_stable_when_clean.1 [['a']] '*' ['a','b'] (by decide),
   censor_stable_when_clean.2.1 [litSearch ['a']] '*' ['a','b'] (by decide),
   censor_stable_when_clean.2.2.1 (trieOfWords [['a']]) '*' ['a','b'] (by decide),
   censor_stable_when_clean.2.2.2
     ⟨[['a']], [litSearch ['a']], trieOfWords [['a']], true, true, true, '*'⟩ ['a','b']
     (by decide)⟩

theorem walkLongest_mem :
    ∀ (l : List Char) (t : Trie) (k : Nat), walkLongest t l = some k →
      wordInTrie t (l.take (k + 1)) = true := by
  intro l
  induction l with
  | nil => intro t k h; simp [walkLongest] at h
  | cons c cs ih =>
    intro t k h
    simp only [walkLongest] at h
    cases hfc : findChild t.childList c with
    | none => simp [hfc] at h
    | some t' =>
      simp only [hfc] at h
      cases hwl : walkLongest t' cs with
      | some k' =>
        simp only [hwl, Option.some.injEq] at h
        subst h
        have htk := ih t' k' hwl
        have hne : (cs.take (k' + 1)).isEmpty = false := by
          have := walkLongest_le cs t' k' hwl
          cases cs with
          | nil => simp at this
          | cons d ds => simp
        simp only [List.take_succ_cons, wordInTrie, hfc, hne]
        exact htk
      | none =>
        simp only [hwl] at h
        by_cases he : t'.isEnd = true
        · simp only [he, if_true, Option.some.injEq] at h
          subst h
          simp [wordInTrie, hfc, he]
        · simp [he] at h

theorem walkLongest_max :
    ∀ (l : List Char) (t : Trie) (m : Nat), m ≤ l.length →
      wordInTrie t (l.take m) = true →
      ∃ k, walkLongest t l = some k ∧ m ≤ k + 1 := by
  intro l
  induction l with
  | nil =>
    intro t m _ hw
    simp [wordInTrie, List.take_nil] at hw
  | cons c cs ih =>
    intro t m hm hw
    cases m with
    | zero => simp [wordInTrie] at hw
    | succ m' =>
      simp only [List.take_succ_cons, wordInTrie] at hw
      cases hfc : findChild t.childList c with
      | none => simp [hfc] at hw
      | some t' =>
        simp only [hfc] at hw
        simp only [walkLongest, hfc]
        by_cases hemp : (cs.take m').isEmpty = true
        · rw [if_pos hemp] at hw
          have hm'0 : m' = 0 := by
            rcases List.take_eq_nil_iff.mp (List.isEmpty_iff.mp hemp) with h1 | h1
            · exact h1
            · subst h1
              simp only [List.length_cons, List.length_nil] at hm
              omega
          cases hwl : walkLongest t' cs with
          | some k' => exact ⟨k' + 1, rfl, by omega⟩
          | none => exact ⟨0, by simp [hw], by omega⟩
        · rw [if_neg hemp] at hw
          have hm' : m' ≤ cs.length := by
            simp only [List.length_cons] at hm
            omega
          obtain ⟨k', hk', hmk⟩ := ih t' m' hm' hw
          exact ⟨k' + 1, by simp [hk'], by omega⟩

/-- C2: the trie censor is greedy longest-match-at-each-start — the inner
walk reports a match length `k + 1` exactly when the first `k + 1`
characters spell a banned word and no longer banned word begins at that
position; in particular, with banned words `{"ass", "assassin"}`,
censoring `"assassin"` masks all 8 characters, not just the first 3. -/
theorem trie_censor_longest_match :
    (∀ (t : Trie) (l : List Char) (k : Nat), walkLongest t l = some k →
        wordInTrie t (l.take (k + 1)) = true
        ∧ ∀ m, m ≤ l.length → wordInTrie t (l.take m) = true → m ≤ k + 1)
    ∧ trieCensor (trieOfWords ["ass".data, "assassin".data]) '*' "assassin".data
        = List.replicate 8 '*' := by
  constructor
  · intro t l k h
    refine ⟨walkLongest_mem l t k h, fun m hm hw => ?_⟩
    obtain ⟨k', hk', hmk⟩ := walkLongest_max l t m hm hw
    rw [h] at hk'
    injection hk' with e
    omega
  · decide

/-- Witness for C2 at the trie holding `{"ass", "assassin"}` and the
text `"assassin"`: the walk reports length 8, that 8-character word is
in the trie, and the 3-character word `"ass"` is bounded by it. -/
theorem trie_censor_longest_match_witness :
    wordInTrie (trieOfWords ["ass".data, "assassin".data]) ("assassin".data.take 8) = true
    ∧ 3 ≤ 7 + 1 :=
  ⟨(trie_censor_longest_match.1 (trieOfWords ["ass".data, "assassin".data]) "assassin".data 7
      (by decide)).1,
   (trie_censor_longest_match.1 (trieOfWords ["ass".data, "assassin".data]) "assassin".data 7
      (by decide)).2 3 (by decide) (by decide)⟩

/-- C6: one step of the trie censor scan — on a match of length
`k + 1` at the current position it masks exactly those characters and
resumes immediately after the match (positions strictly inside the
masked span are never examined in this pass), and with no match it
advances by one; the crafted overlap `{"ab","bc"}` on `"abc"` yields
`"**c"`, the inner word `"bc"` starting mid-span not being re-flagged. -/
theorem trie_censor_skip_on_match :
    (∀ (t : Trie) (repl : Char) (fuel : Nat) (c o : Char) (cs os : List Char) (k : Nat),
        walkLongest t (c :: cs) = some k →
        trieCensorFuel t repl (fuel + 1) (c :: cs) (o :: os)
          = List.replicate (k + 1) repl
              ++ trieCensorFuel t repl fuel (cs.drop k) ((o :: os).drop (k + 1)))
    ∧ (∀ (t : Trie) (repl : Char) (fuel : Nat) (c o : Char) (cs os : List Char),
        walkLongest t (c :: cs) = none →
        trieCensorFuel t repl (fuel + 1) (c :: cs) (o :: os)
          = o :: trieCensorFuel t repl fuel cs os)
    ∧ trieCensor (trieOfWords ["ab".data, "bc".data]) '*' "abc".data = "**c".data := by
  refine ⟨?_, ?_, by decide⟩
  · intro t repl fuel c o cs os k h
    simp only [trieCensorFuel, h]
  · intro t repl fuel c o cs os h
    simp only [trieCensorFuel, h]

/-- Witness for C6 at the trie holding `{"ab", "bc"}` scanning `"abc"`:
the first step matches `"ab"` (length 2) and skips to index 2, the step
at `"c"` finds no match and advances by one. -/
theorem trie_censor_skip_on_match_witness :
    trieCensorFuel (trieOfWords ["ab".data, "bc".data]) '*' 3
        ('a' :: ['b','c']) ('a' :: ['b','c'])
      = List.replicate 2 '*'
          ++ trieCensorFuel (trieOfWords ["ab".data, "bc".data]) '*' 2
              (['b','c'].drop 1) (('a' :: ['b','c']).drop 2)
    ∧ trieCensorFuel (trieOfWords ["ab".data, "bc".data]) '*' 1 ('c' :: []) ('c' :: [])
      = 'c' :: trieCensorFuel (trieOfWords ["ab".data, "bc".data]) '*' 0 [] [] :=
  ⟨trie_censor_skip_on_match.1 (trieOfWords ["ab".data, "bc".data]) '*' 2 'a' 'a'
      ['b','c'] ['b','c'] 1 (by decide),
   trie_censor_skip_on_match.2.1 (trieOfWords ["ab".data, "bc".data]) '*' 0 'c' 'c'
      [] [] (by decide)⟩

theorem hybridLoadWords_configure :
    ∀ (lines : List (List Char)) (h : HybridFilter) (s r t : Bool),
      hybridLoadWords (configureFilters h s r t) lines
        = configureFilters (hybridLoadWords h lines) s r t := by
  intro lines
  induction lines with
  | nil => intro h s r t; rfl
  | cons w ws ih =>
    intro h s r t
    unfold hybridLoadWords at ih ⊢
    simp only [List.foldl_cons]
    by_cases hw : w.isEmpty = true
    · simp only [hw, if_true]
      exact ih h s r t
    · simp only [hw, if_false]
      have e : hybridAddProfanity (configureFilters h s r t) w
          = configureFilters (hybridAddProfanity h w) s r t := rfl
      rw [e]
      exact ih (hybridAddProfanity h w) s r t

/-- C7: the composite's `addProfanity` and `loadFromFile` forward words
to all three sub-engines unconditionally — the three enablement flags
are neither consulted nor changed, so adding commutes with any
reconfiguration and a word added while flags are off is matched under
any later flag setting exactly as if it had been added with them on. -/
theorem hybrid_add_ignores_flags :
    ∀ (h : HybridFilter) (w : List Char) (s r t : Bool),
      hybridAddProfanity (configureFilters h s r t) w
        = configureFilters (hybridAddProfanity h w) s r t
      ∧ (hybridAddProfanity h w).useSimpleFilter = h.useSimpleFilter
      ∧ (hybridAddProfanity h w).useRegexFilter = h.useRegexFilter
      ∧ (hybridAddProfanity h w).useTrieFilter = h.useTrieFilter
      ∧ (hybridAddProfanity h w).simpleWords = simpleAddProfanity h.simpleWords w
      ∧ (hybridAddProfanity h w).regexPats = h.regexPats ++ [compileWordPattern w]
      ∧ (hybridAddProfanity h w).trie = h.trie.insert (toLowerL w)
      ∧ (∀ (lines : List (List Char)),
          hybridLoadWords (configureFilters h s r t) lines
            = configureFilters (hybridLoadWords h lines) s r t)
      ∧ (∀ (s' r' t' : Bool) (text : List Char),
          hybridContains
              (configureFilters (hybridAddProfanity (configureFilters h s r t) w) s' r' t') text
            = hybridContains (configureFilters (hybridAddProfanity h w) s' r' t') text) := by
  intro h w s r t
  refine ⟨rfl, rfl, rfl, rfl, rfl, rfl, rfl, fun lines => hybridLoadWords_configure lines h s r t, ?_⟩
  intro s' r' t' text
  rfl

theorem regexCensorAux_eq_applyMatches (pat : RegexPat) (lower : List Char) (repl : Char) :
    ∀ (fuel start : Nat) (res : List Char),
      regexCensorAux pat lower repl fuel start res
        = applyMatches repl (collectMatches pat lower fuel start) res := by
  intro fuel
  induction fuel with
  | zero => intro start res; rfl
  | succ n ih =>
    intro start res
    simp only [regexCensorAux, collectMatches]
    cases pat lower start with
    | none => rfl
    | some m =>
      obtain ⟨p, len⟩ := m
      simp only [applyMatches, List.foldl_cons]
      exact ih (p + len) (maskFrom repl res p len)

/-- C4 (amended): patterns are applied sequentially in registration
order, but every pattern's match list is computed against the lowercased
ORIGINAL input text — later patterns do not see the mask characters
written by earlier patterns; each pattern's non-overlapping leftmost
match spans are replaced in the shared result buffer. -/
theorem regex_censor_scans_original :
    ∀ (pats : List RegexPat) (repl : Char) (text : List Char),
      regexCensor pats repl text
        = pats.foldl
            (fun res pat =>
              applyMatches repl
                (collectMatches pat (toLowerL text) ((toLowerL text).length + 1) 0) res)
            text := by
  intro pats repl text
  unfold regexCensor
  have hstep : (fun (res : List Char) (pat : RegexPat) =>
        regexCensorAux pat (toLowerL text) repl ((toLowerL text).length + 1) 0 res)
      = (fun res pat =>
          applyMatches repl
            (collectMatches pat (toLowerL text) ((toLowerL text).length + 1) 0) res) := by
    funext res pat
    exact regexCensorAux_eq_applyMatches pat (toLowerL text) repl _ _ res
  rw [hstep]

/-- C4 counterexample: with the literal patterns `"a"` then `"ab"`
registered in that order and input `"ab"`, the code censors to `"**"` —
the second pattern still matched `"ab"` in the lowercased original text —
whereas under the claimed progressively-masked re-scan the second
pattern would see `"*b"`, find nothing, and leave `"*b"`. -/
theorem regex_rescan_counterexample :
    regexCensor [litSearch ['a'], litSearch ['a','b']] '*' ['a','b'] = ['*','*']
    ∧ regexCensorRescanMasked [litSearch ['a'], litSearch ['a','b']] '*' ['a','b'] = ['*','b']
    ∧ regexCensor [litSearch ['a'], litSearch ['a','b']] '*' ['a','b']
        ≠ regexCensorRescanMasked [litSearch ['a'], litSearch ['a','b']] '*' ['a','b'] :=
  ⟨by decide, by decide, by decide⟩

theorem censorWordAux_succ (lower w : List Char) (repl : Char) (fuel pos : Nat)
    (res : List Char) :
    censorWordAux lower w repl (fuel + 1) pos res
      = match findFrom lower w pos with
        | none => res
        | some p => censorWordAux lower w repl fuel (p + w.length) (maskFrom repl res p w.length) :=
  rfl

theorem findFrom_none_of_big {s w : List Char} {pos : Nat} (h : s.length < pos) :
    findFrom s w pos = none := by
  unfold findFrom
  rw [List.find?_eq_none]
  intro p hp
  simp only [List.mem_range] at hp
  simp only [Bool.and_eq_true, decide_eq_true_eq]
  rintro ⟨hpos, _⟩
  omega

theorem censorWordAux_stable (lower w : List Char) (repl : Char) (hw : w ≠ []) :
    ∀ (fuel pos : Nat) (res : List Char), lower.length + 1 ≤ fuel + pos →
      censorWordAux lower w repl (fuel + 1) pos res
        = censorWordAux lower w repl fuel pos res := by
  intro fuel
  induction fuel with
  | zero =>
    intro pos res hb
    rw [censorWordAux_succ, findFrom_none_of_big (by omega)]
    rfl
  | succ n ih =>
    intro pos res hb
    cases hf : findFrom lower w pos with
    | none =>
      rw [censorWordAux_succ, censorWordAux_succ, hf]
    | some p =>
      obtain ⟨hpos, hple, hm⟩ := findFrom_some hf
      have hw1 : 1 ≤ w.length := by
        cases w with
        | nil => exact absurd rfl hw
        | cons _ _ => simp
      calc censorWordAux lower w repl (n + 1 + 1) pos res
          = censorWordAux lower w repl (n + 1) (p + w.length)
              (maskFrom repl res p w.length) := by rw [censorWordAux_succ, hf]
        _ = censorWordAux lower w repl n (p + w.length)
              (maskFrom repl res p w.length) :=
            ih (p + w.length) (maskFrom repl res p w.length) (by omega)
        _ = censorWordAux lower w repl (n + 1) pos res := by rw [censorWordAux_succ, hf]

theorem censorWordAux_fuel_ge (lower w : List Char) (repl : Char) (hw : w ≠ []) :
    ∀ (fuel : Nat), lower.length + 1 ≤ fuel →
      ∀ (res : List Char), censorWordAux lower w repl fuel 0 res
        = censorWordAux lower w repl (lower.length + 1) 0 res := by
  intro fuel
  induction fuel with
  | zero => intro h; omega
  | succ n ih =>
    intro h res
    by_cases hn : lower.length + 1 ≤ n
    · rw [censorWordAux_stable lower w repl hw n 0 res (by omega)]
      exact ih hn res
    · have e : n + 1 = lower.length + 1 := by omega
      rw [e]

/-- C10: for a word list of non-empty words, each word's scanning loop in
the literal-set censor is finished after at most `text.length + 1`
iterations — every iteration beyond that bound changes nothing, because
each match advances the scan position by the matched word's positive
length.  (Formally: the fuel-indexed loop is stable at any fuel of at
least `text.length + 1`, the bound `simpleCensor` uses.) -/
theorem simple_censor_fuel_stable :
    ∀ (words : List (List Char)) (repl : Char) (text : List Char) (fuel : Nat),
      (∀ w ∈ words, w ≠ []) → text.length + 1 ≤ fuel →
      simpleCensorFuel fuel words repl text = simpleCensor words repl text := by
  intro words repl text fuel hw hf
  unfold simpleCensor simpleCensorFuel
  have hlow : (toLowerL text).length + 1 ≤ fuel := by rw [toLowerL_length]; exact hf
  have key : ∀ (ws : List (List Char)), (∀ w ∈ ws, w ≠ []) → ∀ (res : List Char),
      ws.foldl (fun res w => censorWordAux (toLowerL text) w repl fuel 0 res) res
        = ws.foldl (fun res w => censorWordAux (toLowerL text) w repl (text.length + 1) 0 res)
            res := by
    intro ws
    induction ws with
    | nil => intro _ res; rfl
    | cons w rest ih =>
      intro hws res
      simp only [List.foldl_cons]
      rw [censorWordAux_fuel_ge (toLowerL text) w repl (hws w (by simp)) fuel hlow res]
      rw [show censorWordAux (toLowerL text) w repl ((toLowerL text).length + 1) 0 res
            = censorWordAux (toLowerL text) w repl (text.length + 1) 0 res from by
          rw [toLowerL_length]]
      exact ih (fun w' hw' => hws w' (by simp [hw'])) _
  exact key words hw text

/-- Witness for C10: with the non-empty word `"a"`, text `"ab"` and the
oversized fuel 7, the loop's result agrees with the canonical bound. -/
theorem simple_censor_fuel_stable_witness :
    simpleCensorFuel 7 [['a']] '*' ['a','b'] = simpleCensor [['a']] '*' ['a','b'] :=
  simple_censor_fuel_stable [['a']] '*' ['a','b'] 7 (by decide) (by decide)

theorem wordInTrie_empty : ∀ (w : List Char), wordInTrie Trie.empty w = false := by
  intro w
  cases w with
  | nil => rfl
  | cons c cs => rfl

theorem findChild_updateChild :
    ∀ (ch : List (Char × Trie)) (c : Char) (t : Trie) (d : Char),
      findChild (updateChild ch c t) d = if d = c then some t else findChild ch d := by
  intro ch
  induction ch with
  | nil =>
    intro c t d
    simp only [updateChild, findChild]
    by_cases h : c = d
    · rw [if_pos h, if_pos h.symm]
    · rw [if_neg h, if_neg (fun hh : d = c => h hh.symm)]
  | cons p rest ih =>
    obtain ⟨ck, ct⟩ := p
    intro c t d
    simp only [updateChild]
    by_cases hck : ck = c
    · rw [if_pos hck]
      simp only [findChild]
      by_cases hd : c = d
      · rw [if_pos hd, if_pos hd.symm]
      · rw [if_neg hd, if_neg (fun hh : d = c => hd hh.symm),
          if_neg (fun hh : ck = d => hd (hck.symm.trans hh))]
    · rw [if_neg hck]
      simp only [findChild]
      by_cases hkd : ck = d
      · rw [if_pos hkd, if_neg (fun hh : d = c => hck (hkd.trans hh)), if_pos hkd]
      · rw [if_neg hkd, if_neg hkd, ih]

theorem mem_insertSet (s : List (List Char)) (v x : List Char) :
    x ∈ insertSet s v ↔ x ∈ s ∨ x = v := by
  unfold insertSet
  split
  · rename_i hmem
    constructor
    · exact Or.inl
    · rintro (h | rfl)
      · exact h
      · exact hmem
  · simp [List.mem_append]

theorem mem_simpleLoadAux :
    ∀ (ws : List (List Char)) (acc : List (List Char)) (x : List Char),
      x ∈ ws.foldl simpleAddProfanity acc ↔ x ∈ acc ∨ ∃ w ∈ ws, x = toLowerL w := by
  intro ws
  induction ws with
  | nil => intro acc x; simp
  | cons w rest ih =>
    intro acc x
    simp only [List.foldl_cons]
    rw [ih]
    unfold simpleAddProfanity
    rw [mem_insertSet]
    simp only [List.mem_cons]
    constructor
    · rintro ((h | rfl) | ⟨w', hw', rfl⟩)
      · exact Or.inl h
      · exact Or.inr ⟨w, Or.inl rfl, rfl⟩
      · exact Or.inr ⟨w', Or.inr hw', rfl⟩
    · rintro (h | ⟨w', (rfl | hw'), rfl⟩)
      · exact Or.inl (Or.inl h)
      · exact Or.inl (Or.inr rfl)
      · exact Or.inr ⟨w', hw', rfl⟩

theorem mem_simpleLoad (ws : List (List Char)) (x : List Char) :
    x ∈ simpleLoad ws ↔ ∃ w ∈ ws, x = toLowerL w := by
  unfold simpleLoad
  rw [mem_simpleLoadAux]
  simp

theorem findFrom_isSome_iff (s w : List Char) :
    (findFrom s w 0).isSome = true
      ↔ ∃ p, p + w.length ≤ s.length ∧ matchAt s w p = true := by
  constructor
  · intro h
    obtain ⟨p, hp⟩ := Option.isSome_iff_exists.mp h
    obtain ⟨_, hple, hm⟩ := findFrom_some hp
    exact ⟨p, matchAt_fits hm hple, hm⟩
  · rintro ⟨p, hfit, hm⟩
    exact findFrom_isSome_of_matchAt (by omega) hm (Nat.zero_le p)

theorem wordInTrie_insert :
    ∀ (v : List Char) (t : Trie) (w : List Char),
      wordInTrie (t.insert v) w = true ↔ ((w = v ∧ v ≠ []) ∨ wordInTrie t w = true) := by
  intro v
  induction v with
  | nil =>
    intro t w
    obtain ⟨b, ch⟩ := t
    cases w with
    | nil => simp [Trie.insert, wordInTrie]
    | cons d ds => simp [Trie.insert, wordInTrie, Trie.childList]
  | cons a as ih =>
    intro t w
    obtain ⟨b, ch⟩ := t
    cases w with
    | nil => simp [Trie.insert, wordInTrie]
    | cons d ds =>
      by_cases hda : d = a
      · subst hda
        cases hfc : findChild ch d with
        | none =>
          simp only [Trie.insert, wordInTrie, Trie.childList, findChild_updateChild,
            if_pos rfl, if_true, hfc, Option.getD_none]
          cases ds with
          | nil =>
            cases as with
            | nil => simp [Trie.insert, Trie.isEnd, Trie.empty, wordInTrie]
            | cons e es => simp [Trie.insert, Trie.isEnd, Trie.empty, wordInTrie]
          | cons e es =>
            simp only [List.isEmpty_cons, if_false, Bool.false_eq_true]
            rw [ih]
            simp [wordInTrie_empty, List.cons.injEq]
            rintro rfl
            simp
        | some t0 =>
          obtain ⟨b0, ch0⟩ := t0
          simp only [Trie.insert, wordInTrie, Trie.childList, findChild_updateChild,
            if_pos rfl, if_true, hfc, Option.getD_some]
          cases ds with
          | nil =>
            cases as with
            | nil => simp [Trie.insert, Trie.isEnd, wordInTrie]
            | cons e es => simp [Trie.insert, Trie.isEnd, wordInTrie, Trie.childList]
          | cons e es =>
            simp only [List.isEmpty_cons, if_false, Bool.false_eq_true]
            rw [ih]
            simp [List.cons.injEq]
            constructor
            · rintro (⟨h, _⟩ | hx)
              · exact Or.inl h
              · exact Or.inr hx
            · rintro (rfl | hx)
              · exact Or.inl ⟨rfl, by simp⟩
              · exact Or.inr hx
      · have hne : ¬(d :: ds = a :: as) := by simp [List.cons.injEq, hda]
        simp only [Trie.insert, wordInTrie, Trie.childList, findChild_updateChild,
          if_neg hda]
        simp [hne]

theorem wordInTrie_foldl :
    ∀ (ws : List (List Char)) (t : Trie) (v : List Char),
      wordInTrie (ws.foldl (fun t' w => t'.insert (toLowerL w)) t) v = true
        ↔ (∃ w ∈ ws, v = toLowerL w ∧ v ≠ []) ∨ wordInTrie t v = true := by
  intro ws
  induction ws with
  | nil => intro t v; simp
  | cons w rest ih =>
    intro t v
    simp only [List.foldl_cons]
    rw [ih, wordInTrie_insert]
    simp only [List.mem_cons]
    constructor
    · rintro (⟨w', hw', rfl, hne⟩ | (⟨rfl, hne⟩ | hx))
      · exact Or.inl ⟨w', Or.inr hw', rfl, hne⟩
      · exact Or.inl ⟨w, Or.inl rfl, rfl, hne⟩
      · exact Or.inr hx
    · rintro (⟨w', (rfl | hw'), rfl, hne⟩ | hx)
      · exact Or.inr (Or.inl ⟨rfl, hne⟩)
      · exact Or.inl ⟨w', hw', rfl, hne⟩
      · exact Or.inr (Or.inr hx)

theorem wordInTrie_ofWords (ws : List (List Char)) (v : List Char) :
    wordInTrie (trieOfWords ws) v = true ↔ ∃ w ∈ ws, v = toLowerL w ∧ v ≠ [] := by
  unfold trieOfWords
  rw [wordInTrie_foldl]
  simp [wordInTrie_empty]

theorem walkContains_iff :
    ∀ (l : List Char) (t : Trie),
      walkContains t l = true ↔ ∃ m, 0 < m ∧ wordInTrie t (l.take m) = true := by
  intro l
  induction l with
  | nil =>
    intro t
    simp [walkContains, wordInTrie]
  | cons c cs ih =>
    intro t
    simp only [walkContains]
    cases hfc : findChild t.childList c with
    | none =>
      constructor
      · intro h
        simp at h
      · rintro ⟨m, hm, hw⟩
        cases m with
        | zero => omega
        | succ m' =>
          simp only [List.take_succ_cons, wordInTrie, hfc] at hw
          simp at hw
    | some t' =>
      constructor
      · intro h
        rcases Bool.or_eq_true_iff.mp h with he | hwalk
        · refine ⟨1, Nat.one_pos, ?_⟩
          simp [wordInTrie, hfc, he]
        · obtain ⟨m', hm', hw'⟩ := (ih t').mp hwalk
          refine ⟨m' + 1, by omega, ?_⟩
          have hne : (cs.take m').isEmpty = false := by
            cases hemp : cs.take m' with
            | nil => rw [hemp] at hw'; simp [wordInTrie] at hw'
            | cons _ _ => simp
          simp only [List.take_succ_cons, wordInTrie, hfc, hne]
          simpa using hw'
      · rintro ⟨m, hm, hw⟩
        cases m with
        | zero => omega
        | succ m' =>
          simp only [List.take_succ_cons, wordInTrie, hfc] at hw
          by_cases hemp : (cs.take m').isEmpty = true
          · rw [if_pos hemp] at hw
            exact Bool.or_eq_true_iff.mpr (Or.inl hw)
          · rw [if_neg hemp] at hw
            have hm'pos : 0 < m' := by
              cases m' with
              | zero => simp at hemp
              | succ k => omega
            exact Bool.or_eq_true_iff.mpr (Or.inr ((ih t').mpr ⟨m', hm'pos, hw⟩))

theorem simpleContains_load_iff (ws : List (List Char)) (text : List Char) :
    simpleContains (simpleLoad ws) text = true
      ↔ ∃ w ∈ ws, ∃ p, p + (toLowerL w).length ≤ (toLowerL text).length
          ∧ matchAt (toLowerL text) (toLowerL w) p = true := by
  unfold simpleContains
  rw [List.any_eq_true]
  constructor
  · rintro ⟨v, hv, hsome⟩
    obtain ⟨w, hw, rfl⟩ := (mem_simpleLoad ws v).mp hv
    obtain ⟨p, hfit, hm⟩ := (findFrom_isSome_iff _ _).mp hsome
    exact ⟨w, hw, p, hfit, hm⟩
  · rintro ⟨w, hw, p, hfit, hm⟩
    exact ⟨toLowerL w, (mem_simpleLoad ws _).mpr ⟨w, hw, rfl⟩,
      (findFrom_isSome_iff _ _).mpr ⟨p, hfit, hm⟩⟩

theorem trieContains_load_iff (ws : List (List Char)) (text : List Char)
    (hne : ∀ w ∈ ws, w ≠ []) :
    trieContains (trieOfWords ws) text = true
      ↔ ∃ w ∈ ws, ∃ p, p + (toLowerL w).length ≤ (toLowerL text).length
          ∧ matchAt (toLowerL text) (toLowerL w) p = true := by
  unfold trieContains
  rw [List.any_eq_true]
  constructor
  · rintro ⟨i, hi, hwalk⟩
    rw [List.mem_range] at hi
    obtain ⟨m, hm, hword⟩ := (walkContains_iff _ _).mp hwalk
    obtain ⟨w, hw, hveq, hvne⟩ := (wordInTrie_ofWords ws _).mp hword
    have hk : (((toLowerL text).drop i).take m).length ≤ m := by
      simp only [List.length_take, List.length_drop]
      omega
    refine ⟨w, hw, i, ?_, ?_⟩
    · have h1 : (toLowerL w).length = (((toLowerL text).drop i).take m).length := by
        rw [← hveq]
      have h2 : (((toLowerL text).drop i).take m).length
          = min m ((toLowerL text).length - i) := by
        simp [List.length_take, List.length_drop]
      omega
    · unfold matchAt
      rw [beq_iff_eq, ← hveq]
      have e1 : (((toLowerL text).drop i).take m).take
            ((((toLowerL text).drop i).take m).length)
          = ((toLowerL text).drop i).take
              ((((toLowerL text).drop i).take m).length) := by
        rw [List.take_take, Nat.min_eq_left hk]
      have e2 : (((toLowerL text).drop i).take m).take
            ((((toLowerL text).drop i).take m).length)
          = ((toLowerL text).drop i).take m := List.take_length _
      rw [← e1, e2]
  · rintro ⟨w, hw, p, hfit, hm⟩
    have hwne := hne w hw
    have hvne : toLowerL w ≠ [] := by
      intro h
      apply hwne
      have hlen := congrArg List.length h
      simp only [toLowerL, List.length_map, List.length_nil] at hlen
      exact List.length_eq_zero.mp hlen
    have hvpos : 0 < (toLowerL w).length := List.length_pos.mpr hvne
    refine ⟨p, List.mem_range.mpr (by omega), ?_⟩
    apply (walkContains_iff _ _).mpr
    refine ⟨(toLowerL w).length, hvpos, ?_⟩
    apply (wordInTrie_ofWords ws _).mpr
    unfold matchAt at hm
    rw [beq_iff_eq] at hm
    exact ⟨w, hw, hm, by rw [hm]; exact hvne⟩

/-- C9: loading the same non-empty words into the literal-set and trie
engines yields the same `containsProfanity` on every text — both report
true exactly when some loaded word (case-folded) occurs as a contiguous
substring of the case-folded text. -/
theorem trie_refines_simple_contains :
    ∀ (ws : List (List Char)) (text : List Char), (∀ w ∈ ws, w ≠ []) →
      trieContains (trieOfWords ws) text = simpleContains (simpleLoad ws) text
      ∧ (simpleContains (simpleLoad ws) text = true ↔
          ∃ w ∈ ws, ∃ p, p + (toLowerL w).length ≤ (toLowerL text).length
            ∧ matchAt (toLowerL text) (toLowerL w) p = true) := by
  intro ws text hne
  have h1 := trieContains_load_iff ws text hne
  have h2 := simpleContains_load_iff ws text
  refine ⟨?_, h2⟩
  exact Bool.eq_iff_iff.mpr (h1.trans h2.symm)

/-- Witness for C9: loading the single word `"ab"` and testing `"xAb"`,
both engines agree (and both detect the case-folded occurrence). -/
theorem trie_refines_simple_contains_witness :
    (trieContains (trieOfWords [['a','b']]) ['x','A','b']
       = simpleContains (simpleLoad [['a','b']]) ['x','A','b'])
    ∧ (simpleContains (simpleLoad [['a','b']]) ['x','A','b'] = true ↔
        ∃ w ∈ [['a','b']], ∃ p, p + (toLowerL w).length ≤ (toLowerL ['x','A','b']).length
          ∧ matchAt (toLowerL ['x','A','b']) (toLowerL w) p = true) :=
  trie_refines_simple_contains [['a','b']] ['x','A','b'] (by decide)

theorem maskFrom_getElem_in (repl : Char) :
    ∀ (res : List Char) (p len i : Nat), p ≤ i → i < p + len → i < res.length →
      (maskFrom repl res p len)[i]? = some repl := by
  intro res
  induction res with
  | nil => intro p len i _ _ h; simp at h
  | cons c cs ih =>
    intro p len i hpi hilen hires
    match p, len with
    | p + 1, len =>
      cases i with
      | zero => omega
      | succ j =>
        simp only [maskFrom, List.getElem?_cons_succ]
        exact ih p len j (by omega) (by omega) (by simpa using hires)
    | 0, 0 => omega
    | 0, len + 1 =>
      cases i with
      | zero => simp [maskFrom]
      | succ j =>
        simp only [maskFrom, List.getElem?_cons_succ]
        exact ih 0 len j (by omega) (by omega) (by simpa using hires)

theorem maskFrom_getElem_out (repl : Char) :
    ∀ (res : List Char) (p len i : Nat), ¬(p ≤ i ∧ i < p + len) →
      (maskFrom repl res p len)[i]? = res[i]? := by
  intro res
  induction res with
  | nil => intro p len i _; simp [maskFrom]
  | cons c cs ih =>
    intro p len i hout
    match p, len with
    | p + 1, len =>
      cases i with
      | zero => simp [maskFrom]
      | succ j =>
        simp only [maskFrom, List.getElem?_cons_succ]
        exact ih p len j (by omega)
    | 0, 0 => simp [maskFrom]
    | 0, len + 1 =>
      cases i with
      | zero => omega
      | succ j =>
        simp only [maskFrom, List.getElem?_cons_succ]
        exact ih 0 len j (by omega)

theorem maskPositions_getElem (w : List Char) (repl : Char) (i : Nat) :
    ∀ (ps : List Nat) (res : List Char), (∀ p ∈ ps, p + w.length ≤ res.length) →
      (ps.foldl (fun r p => maskFrom repl r p w.length) res)[i]?
        = if ps.any (fun p => decide (p ≤ i) && decide (i < p + w.length)) = true
          then some repl else res[i]? := by
  intro ps
  induction ps with
  | nil => intro res _; simp
  | cons p ps' ih =>
    intro res hfit
    simp only [List.foldl_cons, List.any_cons]
    have hlen' : (maskFrom repl res p w.length).length = res.length := maskFrom_length _ _ _ _
    rw [ih (maskFrom repl res p w.length)
      (fun q hq => by rw [hlen']; exact hfit q (by simp [hq]))]
    by_cases hcond : p ≤ i ∧ i < p + w.length
    · have hires : i < res.length := by
        have := hfit p (by simp)
        omega
      rw [maskFrom_getElem_in repl res p w.length i hcond.1 hcond.2 hires]
      have hb : (decide (p ≤ i) && decide (i < p + w.length)) = true := by
        simp [hcond.1, hcond.2]
      simp [hb]
    · rw [maskFrom_getElem_out repl res p w.length i hcond]
      have hb : (decide (p ≤ i) && decide (i < p + w.length)) = false := by
        rcases Decidable.not_and_iff_or_not.mp hcond with h | h <;> simp [h]
      simp [hb]

theorem censorWordAux_eq_greedy (lower w : List Char) (repl : Char) :
    ∀ (fuel pos : Nat) (res : List Char),
      censorWordAux lower w repl fuel pos res
        = (greedyPositions lower w fuel pos).foldl
            (fun r p => maskFrom repl r p w.length) res := by
  intro fuel
  induction fuel with
  | zero => intro pos res; rfl
  | succ n ih =>
    intro pos res
    simp only [censorWordAux, greedyPositions]
    cases findFrom lower w pos with
    | none => rfl
    | some p =>
      simp only [List.foldl_cons]
      exact ih (p + w.length) (maskFrom repl res p w.length)

theorem greedyPositions_fit (lower w : List Char) :
    ∀ (fuel pos : Nat) (p : Nat), p ∈ greedyPositions lower w fuel pos →
      p + w.length ≤ lower.length := by
  intro fuel
  induction fuel with
  | zero => intro pos p h; simp [greedyPositions] at h
  | succ n ih =>
    intro pos p h
    simp only [greedyPositions] at h
    cases hf : findFrom lower w pos with
    | none => rw [hf] at h; simp at h
    | some q =>
      rw [hf] at h
      simp only [List.mem_cons] at h
      cases h with
      | inl he =>
        subst he
        obtain ⟨_, hple, hm⟩ := findFrom_some hf
        exact matchAt_fits hm hple
      | inr hmem => exact ih (q + w.length) p hmem

theorem foldl_maskFrom_length (repl : Char) (w : List Char) :
    ∀ (ps : List Nat) (res : List Char),
      (ps.foldl (fun r p => maskFrom repl r p w.length) res).length = res.length := by
  intro ps
  induction ps with
  | nil => intro res; rfl
  | cons q qs ih =>
    intro res
    simp only [List.foldl_cons]
    rw [ih, maskFrom_length]

theorem simpleFold_getElem (lower : List Char) (repl : Char) (i : Nat) :
    ∀ (words : List (List Char)) (res : List Char), res.length = lower.length →
      (words.foldl (fun r w => censorWordAux lower w repl (lower.length + 1) 0 r) res)[i]?
        = if coveredBySimple words lower i = true then some repl else res[i]? := by
  intro words
  induction words with
  | nil => intro res _; simp [coveredBySimple]
  | cons w ws ih =>
    intro res hlen
    simp only [List.foldl_cons]
    rw [censorWordAux_eq_greedy]
    have hres'len : ((greedyPositions lower w (lower.length + 1) 0).foldl
        (fun r p => maskFrom repl r p w.length) res).length = res.length :=
      foldl_maskFrom_length repl w _ res
    rw [ih _ (by rw [hres'len, hlen])]
    rw [maskPositions_getElem w repl i (greedyPositions lower w (lower.length + 1) 0) res
      (fun p hp => by rw [hlen]; exact greedyPositions_fit lower w _ _ p hp)]
    have hcov : coveredBySimple (w :: ws) lower i
        = ((greedyPositions lower w (lower.length + 1) 0).any
            (fun p => decide (p ≤ i) && decide (i < p + w.length))
          || coveredBySimple ws lower i) := by
      simp [coveredBySimple]
    rw [hcov]
    cases hA : (greedyPositions lower w (lower.length + 1) 0).any
        (fun p => decide (p ≤ i) && decide (i < p + w.length)) <;>
      cases hB : coveredBySimple ws lower i <;> simp

/-- C3 (amended): the literal-set censor masks, for every banned word,
the occurrences found by a left-to-right scan of the case-folded input
that resumes immediately AFTER each match end — per word the
non-overlapping leftmost occurrences; a later occurrence of the same
word overlapping a found one is skipped, while occurrences of different
words overlap freely — and the output is exactly the union of those
ranges: each index holds the mask character iff some word's scan covers
it, and the original character otherwise. -/
theorem simple_censor_masks_union :
    ∀ (words : List (List Char)) (repl : Char) (text : List Char) (i : Nat),
      (simpleCensor words repl text)[i]?
        = if coveredBySimple words (toLowerL text) i = true then some repl
          else text[i]? := by
  intro words repl text i
  unfold simpleCensor simpleCensorFuel
  have e : text.length + 1 = (toLowerL text).length + 1 := by rw [toLowerL_length]
  rw [e]
  exact simpleFold_getElem (toLowerL text) repl i words text (by rw [toLowerL_length])

/-- C3 counterexample: with banned word `"aa"` and input `"aaa"`, the
claim demands all three characters masked (overlapping occurrences at
positions 0 and 1 both masked); the code finds the occurrence at 0,
resumes at position 2, finds nothing, and leaves `"**a"`. -/
theorem simple_censor_overlap_counterexample :
    simpleCensor [['a','a']] '*' ['a','a','a'] = ['*','*','a']
    ∧ simpleCensor [['a','a']] '*' ['a','a','a'] ≠ ['*','*','*'] :=
  ⟨by decide, by decide⟩
